import Mathlib

/-!
Shallow embedding of `src/thales/indicators/series_indicators.py` (repository
`toby-p/tradez`).

A pandas `Series` of price data is modelled by `PSeries`: a list of integer
timestamps (`idx`, the `DatetimeIndex` as int64 instants) together with a list
of float values (`vals`).  Float values are modelled by `FVal`: either an exact
rational (`num`), the IEEE not-a-number (`nan`), or a signed infinity
(`pinf`/`ninf`), with the arithmetic rules of IEEE-754 on those constructors
(NaN propagates through every operation; `0/0` is NaN; `x/0` is a signed
infinity for `x` nonzero).
-/

/-- IEEE float values as used by numpy/pandas: exact rationals plus
NaN and the two infinities. -/
inductive FVal where
  | num (q : ℚ)
  | nan
  | pinf
  | ninf
deriving DecidableEq, Repr

namespace FVal

/-- Whether a value is NaN (pandas `isna` on floats). -/
def isNan : FVal → Bool
  | nan => true
  | _ => false

/-- IEEE addition. -/
def fadd : FVal → FVal → FVal
  | nan, _ => nan
  | _, nan => nan
  | num a, num b => num (a + b)
  | pinf, ninf => nan
  | ninf, pinf => nan
  | pinf, _ => pinf
  | _, pinf => pinf
  | ninf, _ => ninf
  | _, ninf => ninf

/-- IEEE negation. -/
def fneg : FVal → FVal
  | nan => nan
  | num a => num (-a)
  | pinf => ninf
  | ninf => pinf

/-- IEEE subtraction. -/
def fsub (a b : FVal) : FVal := fadd a (fneg b)

/-- IEEE multiplication (`inf * 0 = nan`). -/
def fmul : FVal → FVal → FVal
  | nan, _ => nan
  | _, nan => nan
  | num a, num b => num (a * b)
  | pinf, num b => if b = 0 then nan else if 0 < b then pinf else ninf
  | num a, pinf => if a = 0 then nan else if 0 < a then pinf else ninf
  | ninf, num b => if b = 0 then nan else if 0 < b then ninf else pinf
  | num a, ninf => if a = 0 then nan else if 0 < a then ninf else pinf
  | pinf, pinf => pinf
  | ninf, ninf => pinf
  | pinf, ninf => ninf
  | ninf, pinf => ninf

/-- IEEE division with numpy zero-division semantics on float64:
`0/0 = nan`, `x/0 = ±inf` for nonzero `x` (the denominator literal `0` is
positive zero). -/
def fdiv : FVal → FVal → FVal
  | nan, _ => nan
  | _, nan => nan
  | num a, num b =>
      if b = 0 then (if a = 0 then nan else if 0 < a then pinf else ninf)
      else num (a / b)
  | pinf, num b => if 0 ≤ b then pinf else ninf
  | ninf, num b => if 0 ≤ b then ninf else pinf
  | num _, pinf => num 0
  | num _, ninf => num 0
  | pinf, pinf => nan
  | pinf, ninf => nan
  | ninf, pinf => nan
  | ninf, ninf => nan

/-- IEEE absolute value. -/
def fabs : FVal → FVal
  | nan => nan
  | num a => num |a|
  | pinf => pinf
  | ninf => pinf

/-- Squaring (`x ** 2` in the source). -/
def fsq (a : FVal) : FVal := fmul a a

end FVal

open FVal

/-- A pandas Series: a timestamp index together with float values.
Well-formed series have `idx.length = vals.length`; the claims assume it
explicitly where needed. -/
structure PSeries where
  idx : List ℤ
  vals : List FVal
deriving DecidableEq, Repr

namespace PSeries

/-- Label-based lookup (`s[t]` / `s.loc[t]`): the value at the first
occurrence of timestamp `t`, NaN when the timestamp is absent (the value a
pandas alignment supplies for a missing label). -/
def get (s : PSeries) (t : ℤ) : FVal :=
  (((s.idx.zip s.vals).find? (fun p => p.1 == t)).map Prod.snd).getD nan

/-- Number of rows (`len(s)`). -/
def length (s : PSeries) : ℕ := s.vals.length

end PSeries

/-- Sorted union of two indexes, as pandas builds it when aligning two
series with different indexes. -/
def idxUnion (xs ys : List ℤ) : List ℤ :=
  (xs ++ ys.filter (fun y => !(xs.contains y))).mergeSort (fun a b => a ≤ b)

/-- Pointwise binary arithmetic between two pandas Series: when the two
indexes coincide the operation is applied positionally; otherwise the
operands are aligned on the sorted union of the indexes, a missing label
contributing NaN. -/
def alignOp (f : FVal → FVal → FVal) (a b : PSeries) : PSeries :=
  if a.idx = b.idx then ⟨a.idx, List.zipWith f a.vals b.vals⟩
  else
    let u := idxUnion a.idx b.idx
    ⟨u, u.map (fun t => f (a.get t) (b.get t))⟩

/-- Scalar multiplication `c * s` on a pandas Series. -/
def seriesScale (c : ℚ) (s : PSeries) : PSeries :=
  ⟨s.idx, s.vals.map (fun v => fmul (num c) v)⟩

/-! ## Validation and output transforms -/

/-- `validate_series`: requires a `DatetimeIndex` (always true of our index
type), sorts by the index ascending, then asserts the series has no NaNs.
The assertion message is the one raised by the source. -/
def validate_series (s : PSeries) : Except String PSeries :=
  let sorted := (s.idx.zip s.vals).mergeSort (fun a b => a.1 ≤ b.1)
  if sorted.any (fun p => isNan p.2) then .error "Series cannot contain NaNs"
  else .ok ⟨sorted.map Prod.fst, sorted.map Prod.snd⟩

/-- `convert_to_percent_diff`: `(output_s - input_s) / input_s`. -/
def convert_to_percent_diff (input_s output_s : PSeries) : PSeries :=
  alignOp fdiv (alignOp fsub output_s input_s) input_s

/-- `convert_to_ratio`: `output_s / input_s`. -/
def convert_to_ratio (input_s output_s : PSeries) : PSeries :=
  alignOp fdiv output_s input_s

/-- The transform step of `_SeriesInSeriesOut.__init__`: first `as_percent_diff`
is consulted, and only `elif` that flag is off is `as_ratio` consulted. -/
def outputTransform (s output : PSeries) (as_percent_diff as_ratio : Bool) : PSeries :=
  if as_percent_diff then convert_to_percent_diff s output
  else if as_ratio then convert_to_ratio s output
  else output

/-! ## Rolling / diff / ewm primitives (pandas and scipy library semantics
as exercised by the source on float64 data) -/

/-- `s.diff(k)` at one position. -/
def diffAt (k : ℕ) (xs : List FVal) (i : ℕ) : FVal :=
  if i < k then nan else fsub (xs.getD i nan) (xs.getD (i - k) nan)

/-- `s.diff(k)`: the first `k` outputs are NaN, afterwards `xs[i] - xs[i-k]`. -/
def diffList (k : ℕ) (xs : List FVal) : List FVal :=
  (List.range xs.length).map (diffAt k xs)

/-- `s.rolling(window=n).sum()` at one position, with the default
`min_periods = n`: NaN before `n` observations are available, NaN when the
window contains a NaN, otherwise the sum of the window. -/
def rollingSumAt (n : ℕ) (xs : List FVal) (i : ℕ) : FVal :=
  if i + 1 < n then nan
  else
    let w := (xs.drop (i + 1 - n)).take n
    if w.any isNan then nan else w.foldl fadd (num 0)

/-- `s.rolling(window=n).sum()`. -/
def rollingSum (n : ℕ) (xs : List FVal) : List FVal :=
  (List.range xs.length).map (rollingSumAt n xs)

/-- `s.rolling(window=n).mean()` at one position: the rolling sum divided by
the `n` observations of the full window. -/
def rollingMeanAt (n : ℕ) (xs : List FVal) (i : ℕ) : FVal :=
  fdiv (rollingSumAt n xs i) (num n)

/-- `s.rolling(window=n).mean()`. -/
def rollingMean (n : ℕ) (xs : List FVal) : List FVal :=
  (List.range xs.length).map (rollingMeanAt n xs)

/-- One-step-state scan: each output is `f` of the previous output and the
current input.  This is the shape both of pandas `ewm(adjust=False).mean()`
and of KAMA's explicit Python loop. -/
def foldSteps (f : FVal → α → FVal) (p : FVal) : List α → List FVal
  | [] => []
  | x :: xs => f p x :: foldSteps f (f p x) xs

/-- `s.ewm(alpha=a, adjust=False).mean()` for a series without missing
values (every series this development feeds to it is NaN-free):
`y[0] = x[0]`, `y[i] = a*x[i] + (1-a)*y[i-1]`. -/
def ewmMean (a : ℚ) : List FVal → List FVal
  | [] => []
  | x :: xs => x :: foldSteps (fun prev v => fadd (fmul (num a) v) (fmul (num (1 - a)) prev)) x xs

/-- Resolution of the mutually exclusive `ewm` smoothing parameters
(pandas `get_center_of_mass` restricted to the two parameters the source
passes): both given is an error; `span` must be at least 1 and stands for
`alpha = 2/(span+1)`; `alpha` must satisfy `0 < alpha <= 1`; neither given
is an error. -/
def ewmAlphaResolve (alpha span : Option ℚ) : Except String ℚ :=
  match alpha, span with
  | some _, some _ => .error "comass, span, halflife, and alpha are mutually exclusive"
  | none, some sp =>
      if sp < 1 then .error "span must satisfy: span >= 1" else .ok (2 / (sp + 1))
  | some a, none =>
      if a ≤ 0 ∨ 1 < a then .error "alpha must satisfy: 0 < alpha <= 1" else .ok a
  | none, none => .error "Must pass one of comass, span, halflife, or alpha"

/-! ## Indicators -/

/-- `EMA.apply_indicator`: `s.ewm(alpha=alpha, span=span, adjust=False).mean()`;
the index is unchanged. -/
def EMA_apply (s : PSeries) (alpha span : Option ℚ) : Except String PSeries := do
  let a ← ewmAlphaResolve alpha span
  .ok ⟨s.idx, ewmMean a s.vals⟩

/-- Truthiness of an optional float under Python (`not x`): absent (`None`)
and zero are falsy, every other value truthy. -/
def falsyB : Option ℚ → Bool
  | none => true
  | some q => q == 0

/-- The parameter defaulting shared textually by the `EMA`, `DEMA` and `TEMA`
constructors: `if not alpha and not span: span = len(s)`. -/
def emaResolve (len : ℕ) (alpha span : Option ℚ) : Option ℚ × Option ℚ :=
  if falsyB alpha && falsyB span then (alpha, some len) else (alpha, span)

/-- The `EMA` constructor: parameter defaulting followed by
`EMA.apply_indicator` (validation/transforms aside). -/
def EMA_ctor (s : PSeries) (alpha span : Option ℚ) : Except String PSeries :=
  let r := emaResolve s.length alpha span
  EMA_apply s r.1 r.2

/-- `SMA.apply_indicator`: `s.rolling(window=n).mean()`; the index is
unchanged (warm-up positions hold NaN). -/
def SMA_apply (s : PSeries) (n : ℕ) : PSeries :=
  ⟨s.idx, rollingMean n s.vals⟩

/-- The raw WMA weights `np.arange(n, 0, -1) = [n, n-1, ..., 1]`. -/
def wmaWeights (n : ℕ) : List ℚ :=
  (List.range n).map (fun k => ((n - k : ℕ) : ℚ))

/-- `scipy.signal.convolve(s, w, mode="valid")` for a kernel no longer than
the data: output `i` is the dot product of `xs[i..i+m-1]` with the reversed
kernel. -/
def convolveValid (xs : List FVal) (w : List ℚ) : List FVal :=
  (List.range (xs.length + 1 - w.length)).map (fun i =>
    ((List.range w.length).map (fun j =>
      fmul (xs.getD (i + j) nan) (num (w.getD (w.length - 1 - j) 0)))).foldl fadd (num 0))

/-- `WMA.apply_indicator`: weights `[n, ..., 1]` normalized by their sum,
convolved in valid mode against the data; the index keeps the final
`len - (n-1)` timestamps (`s.index[n-1:]`). -/
def WMA_apply (s : PSeries) (n : ℕ) : PSeries :=
  let raw := wmaWeights n
  let weights := raw.map (fun w => w / raw.sum)
  ⟨s.idx.drop (n - 1), convolveValid s.vals weights⟩

/-- `DEMA.apply_indicator`: `(2 * EMA(s)) - EMA(EMA(s))`, the inner calls
going through the `EMA` constructor with `validate=False`. -/
def DEMA_apply (s : PSeries) (alpha span : Option ℚ) : Except String PSeries := do
  let ema ← EMA_ctor s alpha span
  let ema2 ← EMA_ctor ema alpha span
  .ok (alignOp fsub (seriesScale 2 ema) ema2)

/-- The `DEMA` constructor: the same parameter defaulting as `EMA`, then
`DEMA.apply_indicator`. -/
def DEMA_ctor (s : PSeries) (alpha span : Option ℚ) : Except String PSeries :=
  let r := emaResolve s.length alpha span
  DEMA_apply s r.1 r.2

/-- `TEMA.apply_indicator`: `3*EMA(s) - 3*EMA(EMA(s)) + EMA(EMA(EMA(s)))`
(the source builds `EMA(ema)` twice; being pure, the two agree). -/
def TEMA_apply (s : PSeries) (alpha span : Option ℚ) : Except String PSeries := do
  let ema ← EMA_ctor s alpha span
  let ema2 ← EMA_ctor ema alpha span
  let ema3 ← EMA_ctor ema2 alpha span
  .ok (alignOp fadd (alignOp fsub (seriesScale 3 ema) (seriesScale 3 ema2)) ema3)

/-- The `TEMA` constructor: the same parameter defaulting as `EMA`, then
`TEMA.apply_indicator`. -/
def TEMA_ctor (s : PSeries) (alpha span : Option ℚ) : Except String PSeries :=
  let r := emaResolve s.length alpha span
  TEMA_apply s r.1 r.2

/-- `KER.apply_indicator`: `trend / volatility` with
`trend = s.diff(n).abs()` and
`volatility = s.diff().abs().rolling(window=n).sum()`; all three share the
input index, so the division is positional. -/
def KER_apply (s : PSeries) (n : ℕ) : PSeries :=
  ⟨s.idx,
    List.zipWith fdiv
      ((diffList n s.vals).map fabs)
      (rollingSum n ((diffList 1 s.vals).map fabs))⟩

/-- `s.dropna()`: keep only the rows whose value is not NaN. -/
def dropna (s : PSeries) : PSeries :=
  let ps := (s.idx.zip s.vals).filter (fun p => !(isNan p.2))
  ⟨ps.map Prod.fst, ps.map Prod.snd⟩

/-- KAMA's smoothing constant:
`(e_ratio * (fast_c - slow_c) + slow_c) ** 2` with
`fast_c = 2/(ema_fast+1)` and `slow_c = 2/(ema_slow+1)`. -/
def kamaSC (ema_fast ema_slow : ℕ) (e : FVal) : FVal :=
  fsq (fadd (fmul e (num ((2 : ℚ) / (ema_fast + 1) - (2 : ℚ) / (ema_slow + 1))))
            (num ((2 : ℚ) / (ema_slow + 1))))

/-- One step of KAMA's Python loop:
`prior_kama + sc * (price - prior_kama)` for a `(price, sc)` row. -/
def kamaStep (prior : FVal) (row : FVal × FVal) : FVal :=
  fadd prior (fmul row.2 (fsub row.1 prior))

/-- `KAMA.apply_indicator`: asserts `n >= er`; builds the efficiency ratio
`KER(s, n=er)` and from it the smoothing constants over the full input index;
seeds with the first valid `SMA(s, n)` value; restricts the price/constant
rows to `sma.index[1:]` by label lookup (`calc_df.loc`); then folds the
recurrence over those rows in order.  The returned series is `kama[1:]` on
`sma.index[1:]` — the seed itself is not part of the output.  An empty
seeded SMA makes `sma.iloc[0]` raise an indexing error. -/
def KAMA_apply (s : PSeries) (er ema_fast ema_slow n : ℕ) : Except String PSeries :=
  if n < er then .error "`n` must be greater/equal to `er`."
  else
    let eratio := KER_apply s er
    let scs : PSeries := ⟨s.idx, eratio.vals.map (kamaSC ema_fast ema_slow)⟩
    let sma := dropna (SMA_apply s n)
    let keys := sma.idx.drop 1
    let prices := keys.map (fun t => PSeries.get s t)
    let scAt := keys.map (fun t => PSeries.get scs t)
    match sma.vals with
    | [] => .error "single positional indexer is out-of-bounds"
    | seed :: _ => .ok ⟨keys, foldSteps kamaStep seed (prices.zip scAt)⟩

/-! ## Helper lemmas -/

theorem foldSteps_length (f : FVal → α → FVal) (p : FVal) (l : List α) :
    (foldSteps f p l).length = l.length := by
  induction l generalizing p with
  | nil => rfl
  | cons x xs ih => simp [foldSteps, ih]

theorem foldSteps_getD_zero (f : FVal → α → FVal) (p : FVal) (x : α) (xs : List α) :
    (foldSteps f p (x :: xs)).getD 0 nan = f p x := rfl

theorem foldSteps_getD_succ (f : FVal → α → FVal) (d : α) (l : List α) (p : FVal) (i : ℕ)
    (h : i + 1 < l.length) :
    (foldSteps f p l).getD (i + 1) nan =
      f ((foldSteps f p l).getD i nan) (l.getD (i + 1) d) := by
  induction l generalizing p i with
  | nil => simp at h
  | cons x xs ih =>
    cases i with
    | zero =>
      cases xs with
      | nil => simp at h
      | cons z zs => rfl
    | succ j =>
      have hj : j + 1 < xs.length := by simpa using h
      simpa [foldSteps] using ih (f p x) j hj

theorem ewmMean_length (a : ℚ) (l : List FVal) : (ewmMean a l).length = l.length := by
  cases l with
  | nil => rfl
  | cons x xs => simp [ewmMean, foldSteps_length]

theorem ewmMean_headD (a : ℚ) (x : FVal) (xs : List FVal) :
    (ewmMean a (x :: xs)).getD 0 nan = x := rfl

theorem ewmMean_getD_succ (a : ℚ) (l : List FVal) (i : ℕ) (h : i + 1 < l.length) :
    (ewmMean a l).getD (i + 1) nan =
      fadd (fmul (num a) (l.getD (i + 1) nan))
           (fmul (num (1 - a)) ((ewmMean a l).getD i nan)) := by
  cases l with
  | nil => simp at h
  | cons x xs =>
    cases i with
    | zero =>
      cases xs with
      | nil => simp at h
      | cons z zs => rfl
    | succ j =>
      have hj : j + 1 < xs.length := by simpa using h
      simpa [ewmMean, foldSteps]
        using foldSteps_getD_succ (fun prev v => fadd (fmul (num a) v) (fmul (num (1 - a)) prev))
          nan xs x j hj

theorem length_diffList (k : ℕ) (xs : List FVal) : (diffList k xs).length = xs.length := by
  simp [diffList]

theorem getD_diffList (k : ℕ) (xs : List FVal) (i : ℕ) (h : i < xs.length) :
    (diffList k xs).getD i nan = diffAt k xs i := by
  rw [List.getD_eq_getElem?_getD]
  have hlen : i < (diffList k xs).length := by simpa [length_diffList]
  rw [List.getElem?_eq_getElem hlen]
  simp [diffList]

theorem length_rollingSum (n : ℕ) (xs : List FVal) : (rollingSum n xs).length = xs.length := by
  simp [rollingSum]

theorem getD_rollingSum (n : ℕ) (xs : List FVal) (i : ℕ) (h : i < xs.length) :
    (rollingSum n xs).getD i nan = rollingSumAt n xs i := by
  rw [List.getD_eq_getElem?_getD]
  have hlen : i < (rollingSum n xs).length := by simpa [length_rollingSum]
  rw [List.getElem?_eq_getElem hlen]
  simp [rollingSum]

theorem length_rollingMean (n : ℕ) (xs : List FVal) : (rollingMean n xs).length = xs.length := by
  simp [rollingMean]

theorem getD_rollingMean (n : ℕ) (xs : List FVal) (i : ℕ) (h : i < xs.length) :
    (rollingMean n xs).getD i nan = rollingMeanAt n xs i := by
  rw [List.getD_eq_getElem?_getD]
  have hlen : i < (rollingMean n xs).length := by simpa [length_rollingMean]
  rw [List.getElem?_eq_getElem hlen]
  simp [rollingMean]

/-- Folding IEEE addition over a list of exact rationals is the exact
rational sum. -/
theorem foldl_fadd_num (ws : List ℚ) (a : ℚ) :
    (ws.map num).foldl fadd (num a) = num (a + ws.sum) := by
  induction ws generalizing a with
  | nil => simp
  | cons w ws ih => simp [fadd, ih, add_assoc]

/-- A list of exact rationals contains no NaN. -/
theorem map_num_no_nan (ws : List ℚ) : (ws.map num).any isNan = false := by
  induction ws with
  | nil => rfl
  | cons w ws ih => simp [isNan, ih]

/-- Lookup in a series whose values are computed pointwise from its own
(index) list recovers the pointwise function at any present label. -/
theorem get_map_idx (u : List ℤ) (g : ℤ → FVal) (t : ℤ) (ht : t ∈ u) :
    PSeries.get ⟨u, u.map g⟩ t = g t := by
  induction u with
  | nil => simp at ht
  | cons a u ih =>
    by_cases hat : a = t
    · subst hat; simp [PSeries.get, List.find?]
    · have ht' : t ∈ u := by
        rcases List.mem_cons.mp ht with h | h
        · exact absurd h.symm hat
        · exact h
      have : (a == t) = false := by simp [hat]
      simpa [PSeries.get, List.find?, this] using ih ht'

/-- Lookup in a positional `zipWith` of two series sharing one index list
is the operation applied to the two lookups. -/
theorem get_zipWith (f : FVal → FVal → FVal) (u : List ℤ) (av bv : List FVal)
    (ha : av.length = u.length) (hb : bv.length = u.length) (t : ℤ) (ht : t ∈ u) :
    PSeries.get ⟨u, List.zipWith f av bv⟩ t =
      f (PSeries.get ⟨u, av⟩ t) (PSeries.get ⟨u, bv⟩ t) := by
  induction u generalizing av bv with
  | nil => simp at ht
  | cons a u ih =>
    cases av with
    | nil => simp at ha
    | cons x av =>
      cases bv with
      | nil => simp at hb
      | cons y bv =>
        by_cases hat : a = t
        · subst hat; simp [PSeries.get, List.find?]
        · have ht' : t ∈ u := by
            rcases List.mem_cons.mp ht with h | h
            · exact absurd h.symm hat
            · exact h
          have hbeq : (a == t) = false := by simp [hat]
          have ha' : av.length = u.length := by simpa using ha
          have hb' : bv.length = u.length := by simpa using hb
          simpa [PSeries.get, List.find?, hbeq] using ih av bv ha' hb' ht'

theorem mem_idxUnion (xs ys : List ℤ) (t : ℤ) : t ∈ idxUnion xs ys ↔ t ∈ xs ∨ t ∈ ys := by
  unfold idxUnion
  rw [List.mem_mergeSort, List.mem_append, List.mem_filter]
  constructor
  · rintro (h | ⟨h, _⟩)
    · exact Or.inl h
    · exact Or.inr h
  · rintro (h | h)
    · exact Or.inl h
    · by_cases hx : t ∈ xs
      · exact Or.inl hx
      · exact Or.inr ⟨h, by simpa using hx⟩

/-- The aligned binary operation, looked up at any label present in either
operand, is the operation of the two lookups. -/
theorem alignOp_get (f : FVal → FVal → FVal) (a b : PSeries)
    (ha : a.vals.length = a.idx.length) (hb : b.vals.length = b.idx.length)
    (t : ℤ) (ht : t ∈ a.idx ∨ t ∈ b.idx) :
    (alignOp f a b).get t = f (a.get t) (b.get t) := by
  unfold alignOp
  split
  · rename_i heq
    have ht' : t ∈ a.idx := by
      rcases ht with h | h
      · exact h
      · rw [heq]; exact h
    have h2 : (⟨a.idx, b.vals⟩ : PSeries) = b := by rw [heq]
    have := get_zipWith f a.idx a.vals b.vals ha (heq ▸ hb) t ht'
    rw [h2] at this
    simpa using this
  · have htu : t ∈ idxUnion a.idx b.idx := (mem_idxUnion a.idx b.idx t).mpr ht
    simpa using get_map_idx (idxUnion a.idx b.idx) (fun t => f (a.get t) (b.get t)) t htu

theorem alignOp_length (f : FVal → FVal → FVal) (a b : PSeries)
    (ha : a.vals.length = a.idx.length) (hb : b.vals.length = b.idx.length) :
    (alignOp f a b).vals.length = (alignOp f a b).idx.length := by
  unfold alignOp
  split
  · rename_i heq
    simp [ha, heq ▸ hb]
  · simp

/-- On a series with pairwise-distinct labels, label lookup at the `j`-th
label is positional access at `j`. -/
theorem get_of_nodup (u : List ℤ) (vs : List FVal) (hnd : u.Nodup) (j : ℕ)
    (hj : j < u.length) (hjv : j < vs.length) :
    PSeries.get ⟨u, vs⟩ (u.getD j 0) = vs.getD j nan := by
  induction u generalizing vs j with
  | nil => simp at hj
  | cons a u ih =>
    cases vs with
    | nil => simp at hjv
    | cons v vs =>
      cases j with
      | zero => simp [PSeries.get, List.find?]
      | succ k =>
        have hk : k < u.length := by simpa using hj
        have hkv : k < vs.length := by simpa using hjv
        have hmem : u.getD k 0 ∈ u := by
          rw [List.getD_eq_getElem?_getD, List.getElem?_eq_getElem hk]
          exact List.getElem_mem hk
        have hne : (a == u.getD k 0) = false := by
          have : a ∉ u := (List.nodup_cons.mp hnd).1
          simp only [beq_eq_false_iff_ne, ne_eq]
          intro hcontr
          exact this (hcontr ▸ hmem)
        have hrec := ih vs (List.nodup_cons.mp hnd).2 k hk hkv
        have ht : ((a :: u).getD (k + 1) 0) = u.getD k 0 := rfl
        have hfind : PSeries.get ⟨a :: u, v :: vs⟩ (u.getD k 0)
            = PSeries.get ⟨u, vs⟩ (u.getD k 0) := by
          unfold PSeries.get
          simp only [List.zip_cons_cons]
          rw [List.find?_cons_of_neg]
          simp only [beq_eq_false_iff_ne, ne_eq, List.getD_eq_getElem?_getD] at hne
          simpa using hne
        rw [ht, hfind, hrec]
        rfl

/-- The rolling mean of a NaN-free series: NaN on the first `n - 1`
positions, afterwards the exact window sum divided by `n`. -/
theorem rollingMeanAt_num (qs : List ℚ) (n : ℕ) (hn : 1 ≤ n) (i : ℕ) :
    rollingMeanAt n (qs.map num) i =
      if i + 1 < n then nan
      else num ((((qs.drop (i + 1 - n)).take n).sum) / n) := by
  unfold rollingMeanAt rollingSumAt
  by_cases hlt : i + 1 < n
  · simp [hlt, fdiv]
  · have hle : n ≤ i + 1 := Nat.le_of_not_lt hlt
    have hwin : ((qs.map num).drop (i + 1 - n)).take n
        = (((qs.drop (i + 1 - n)).take n).map num) := by
      simp [List.map_take, List.map_drop]
    have hnonan : ((((qs.drop (i + 1 - n)).take n)).map num).any isNan = false :=
      map_num_no_nan _
    have hsum := foldl_fadd_num (((qs.drop (i + 1 - n)).take n)) 0
    have hnz : (n : ℚ) ≠ 0 := by
      have hpos : 0 < n := hn
      exact_mod_cast hpos.ne'
    simp only [hlt, if_false, hwin, hnonan, Bool.false_eq_true, if_false, hsum]
    simp [fdiv, hnz]

/-- `dropna` on a series whose first `m` values are NaN and whose remaining
values are NaN-free drops exactly the first `m` rows. -/
theorem dropna_split (idx : List ℤ) (vals : List FVal) (m : ℕ)
    (hlen : idx.length = vals.length) (hm : m ≤ vals.length)
    (hnanlow : ∀ i, i < m → vals.getD i nan = nan)
    (hnumhigh : ∀ i, m ≤ i → i < vals.length → isNan (vals.getD i nan) = false) :
    dropna ⟨idx, vals⟩ = ⟨idx.drop m, vals.drop m⟩ := by
  unfold dropna
  have hsplit : idx.zip vals
      = (idx.take m).zip (vals.take m) ++ (idx.drop m).zip (vals.drop m) := by
    rw [← List.zip_append (by simp [hlen])]
    simp
  have hfilter1 : ((idx.take m).zip (vals.take m)).filter (fun p => !(isNan p.2)) = [] := by
    rw [List.filter_eq_nil_iff]
    intro p hp
    have hp2 := List.of_mem_zip hp
    have hmem : p.2 ∈ vals.take m := hp2.2
    rw [List.mem_iff_getElem] at hmem
    obtain ⟨j, hjlen, hjval⟩ := hmem
    have hjm : j < m := by
      have := hjlen
      simp only [List.length_take] at this
      omega
    have hjv : j < vals.length := by omega
    have : vals.getD j nan = p.2 := by
      rw [List.getD_eq_getElem?_getD, List.getElem?_eq_getElem hjv, ← hjval]
      simp [List.getElem_take]
    have hnan : p.2 = nan := by rw [← this, hnanlow j hjm]
    simp [hnan, isNan]
  have hfilter2 : ((idx.drop m).zip (vals.drop m)).filter (fun p => !(isNan p.2))
      = (idx.drop m).zip (vals.drop m) := by
    rw [List.filter_eq_self]
    intro p hp
    have hp2 := (List.of_mem_zip hp).2
    rw [List.mem_iff_getElem] at hp2
    obtain ⟨j, hjlen, hjval⟩ := hp2
    have hjv : m + j < vals.length := by
      have := hjlen
      simp only [List.length_drop] at this
      omega
    have : vals.getD (m + j) nan = p.2 := by
      rw [List.getD_eq_getElem?_getD, List.getElem?_eq_getElem hjv, ← hjval]
      simp [List.getElem_drop]
    have := hnumhigh (m + j) (Nat.le_add_right m j) hjv
    rw [‹vals.getD (m + j) nan = p.2›] at this
    simp [this]
  rw [hsplit, List.filter_append, hfilter1, hfilter2]
  have hlz : ((idx.drop m).zip (vals.drop m)).map Prod.fst = idx.drop m := by
    apply List.map_fst_zip
    simp [hlen]
  have hrz : ((idx.drop m).zip (vals.drop m)).map Prod.snd = vals.drop m := by
    apply List.map_snd_zip
    simp [hlen]
  simp [hlz, hrz]

theorem int_beq_eq (a b : ℤ) : (a == b) = decide (a = b) := by
  by_cases h : a = b <;> simp [h]

/-! ## Claims -/

/-- C1: for every input series and every valid smoothing factor
`0 < alpha ≤ 1`, the EMA output keeps the input's index (hence its length),
its first value is exactly `s[0]`, and every later value satisfies
`ema[i] = alpha*s[i] + (1-alpha)*ema[i-1]` — the `adjust=False`
(no bias adjustment) recurrence. -/
theorem C1_ema_same_index_seed_recurrence (s : PSeries) (α : ℚ)
    (hα : 0 < α ∧ α ≤ 1) (e : PSeries)
    (he : EMA_apply s (some α) none = .ok e) :
    e.idx = s.idx ∧ e.vals.length = s.vals.length ∧
    e.vals.getD 0 nan = s.vals.getD 0 nan ∧
    ∀ i, i + 1 < e.vals.length →
      e.vals.getD (i + 1) nan =
        fadd (fmul (num α) (s.vals.getD (i + 1) nan))
             (fmul (num (1 - α)) (e.vals.getD i nan)) := by
  have hcond : ¬(α ≤ 0 ∨ 1 < α) := by
    push_neg
    exact ⟨hα.1, hα.2⟩
  have he' : e = ⟨s.idx, ewmMean α s.vals⟩ := by
    unfold EMA_apply ewmAlphaResolve at he
    simp only [Bind.bind, Except.bind, if_neg hcond] at he
    exact (Except.ok.inj he).symm
  subst he'
  refine ⟨rfl, ewmMean_length α s.vals, ?_, ?_⟩
  · cases s.vals with
    | nil => rfl
    | cons x xs => rfl
  · intro i h
    have hlen : i + 1 < s.vals.length := by
      simpa [ewmMean_length] using h
    exact ewmMean_getD_succ α s.vals i hlen

theorem C1_ema_same_index_seed_recurrence_witness :
    (0 < (1/2 : ℚ) ∧ (1/2 : ℚ) ≤ 1) ∧
    (EMA_apply ⟨[0, 1], [num 100, num 101]⟩ (some (1/2)) none
      = .ok ⟨[0, 1], [num 100, num (201/2)]⟩) ∧
    (⟨[0, 1], [num 100, num (201/2)]⟩ : PSeries).vals.getD 0 nan
      = (⟨[0, 1], [num 100, num 101]⟩ : PSeries).vals.getD 0 nan := by
  refine ⟨by norm_num, ?_, ?_⟩
  · norm_num [EMA_apply, ewmAlphaResolve, ewmMean, foldSteps, fadd, fmul, Bind.bind, Except.bind]
  · exact (C1_ema_same_index_seed_recurrence ⟨[0, 1], [num 100, num 101]⟩ (1/2)
      (by norm_num) ⟨[0, 1], [num 100, num (201/2)]⟩
      (by norm_num [EMA_apply, ewmAlphaResolve, ewmMean, foldSteps, fadd, fmul,
        Bind.bind, Except.bind])).2.2.1

/-- C2 counterexample: for the 3-point series `[1, 2, 3]` and window `n = 2`
the SMA output has length 3 — the input length — not
`input length - (n-1) = 2`; the warm-up position is present and holds NaN. -/
theorem C2_sma_length_counterexample :
    SMA_apply ⟨[0, 1, 2], [num 1, num 2, num 3]⟩ 2
      = ⟨[0, 1, 2], [nan, num (3/2), num (5/2)]⟩ ∧
    ¬((SMA_apply ⟨[0, 1, 2], [num 1, num 2, num 3]⟩ 2).vals.length
        = (⟨[0, 1, 2], [num 1, num 2, num 3]⟩ : PSeries).vals.length - (2 - 1)) := by
  constructor
  · norm_num [SMA_apply, rollingMean, rollingMeanAt, rollingSumAt, List.range_succ,
      fadd, fdiv, isNan]
  · norm_num [SMA_apply, rollingMean]

/-- C2 (amended): for every NaN-free input series of length `L` and window
`n ≥ 1`, SMA keeps the input's index and length `L`; positions `i < n-1`
hold NaN placeholders (they are present, not absent); at every `i ≥ n-1`
the value is the arithmetic mean of the inputs at positions `[i-n+1, i]`,
so position `n-1` holds the mean of the first `n` values. -/
theorem C2_sma_full_length_window_mean (s : PSeries) (qs : List ℚ) (n : ℕ)
    (hvals : s.vals = qs.map num) (hn : 1 ≤ n) :
    (SMA_apply s n).idx = s.idx ∧
    (SMA_apply s n).vals.length = s.vals.length ∧
    (∀ i, i + 1 < n → i < s.vals.length → (SMA_apply s n).vals.getD i nan = nan) ∧
    (∀ i, n ≤ i + 1 → i < s.vals.length →
      (SMA_apply s n).vals.getD i nan
        = num ((((qs.drop (i + 1 - n)).take n).sum) / n)) := by
  refine ⟨rfl, by simp [SMA_apply, length_rollingMean], ?_, ?_⟩
  · intro i hi hlen
    show (rollingMean n s.vals).getD i nan = nan
    rw [getD_rollingMean n s.vals i hlen, hvals, rollingMeanAt_num qs n hn i, if_pos hi]
  · intro i hi hlen
    show (rollingMean n s.vals).getD i nan = num ((((qs.drop (i + 1 - n)).take n).sum) / n)
    rw [getD_rollingMean n s.vals i hlen, hvals, rollingMeanAt_num qs n hn i,
      if_neg (by omega)]

theorem C2_sma_full_length_window_mean_witness :
    ((⟨[0, 1, 2], [num 1, num 2, num 3]⟩ : PSeries).vals = [(1 : ℚ), 2, 3].map num ∧ 1 ≤ 2) ∧
    (SMA_apply ⟨[0, 1, 2], [num 1, num 2, num 3]⟩ 2).vals.getD 1 nan
      = num (((([(1 : ℚ), 2, 3].drop (1 + 1 - 2)).take 2).sum) / 2) :=
  ⟨⟨rfl, by norm_num⟩,
    (C2_sma_full_length_window_mean ⟨[0, 1, 2], [num 1, num 2, num 3]⟩ [1, 2, 3] 2
      rfl (by norm_num)).2.2.2 1 (by norm_num) (by norm_num)⟩

/-- C5: KAMA's parameter check `n >= er` is the first thing
`apply_indicator` evaluates: with `n < er` the call fails with the
invalid-parameter assertion before any indicator value is computed, and with
`n >= er` that assertion never fires. -/
theorem C5_kama_requires_n_ge_er (s : PSeries) (er ema_fast ema_slow n : ℕ) :
    (n < er → KAMA_apply s er ema_fast ema_slow n
        = .error "`n` must be greater/equal to `er`.") ∧
    (er ≤ n → KAMA_apply s er ema_fast ema_slow n
        ≠ .error "`n` must be greater/equal to `er`.") := by
  constructor
  · intro h
    unfold KAMA_apply
    rw [if_pos h]
  · intro h
    unfold KAMA_apply
    rw [if_neg (by omega)]
    cases hv : (dropna (SMA_apply s n)).vals with
    | nil => simp [hv]
    | cons seed rest => simp [hv]

theorem C5_kama_requires_n_ge_er_witness :
    KAMA_apply ⟨[], []⟩ 3 2 30 2 = .error "`n` must be greater/equal to `er`." :=
  (C5_kama_requires_n_ge_er ⟨[], []⟩ 3 2 30 2).1 (by norm_num)

theorem zip_map_fst_snd_eq {α β : Type} (l : List (α × β)) :
    (l.map Prod.fst).zip (l.map Prod.snd) = l := by
  induction l with
  | nil => rfl
  | cons p ps ih => simp [ih]

/-- C9: the series validator fails with the missing-values assertion
exactly when some value of the series is NaN; on success it returns the
rows of the input sorted by ascending timestamp (a permutation of the
input rows whose index is sorted), raising nothing. -/
theorem C9_validate_series_spec (s : PSeries) (hlen : s.idx.length = s.vals.length) :
    (validate_series s = .error "Series cannot contain NaNs" ↔ nan ∈ s.vals) ∧
    (∀ r, validate_series s = .ok r →
      r.idx.Pairwise (· ≤ ·) ∧ (r.idx.zip r.vals).Perm (s.idx.zip s.vals)) := by
  have hany : (((s.idx.zip s.vals).mergeSort (fun a b => a.1 ≤ b.1)).any
      (fun p => isNan p.2) = true) ↔ nan ∈ s.vals := by
    rw [List.any_eq_true]
    constructor
    · rintro ⟨p, hp, hnan⟩
      have hp' : p ∈ s.idx.zip s.vals := List.mem_mergeSort.mp hp
      have h2 : p.2 ∈ s.vals := (List.of_mem_zip hp').2
      cases hval : p.2 with
      | nan => rw [← hval]; exact h2
      | num q => rw [hval] at hnan; simp [isNan] at hnan
      | pinf => rw [hval] at hnan; simp [isNan] at hnan
      | ninf => rw [hval] at hnan; simp [isNan] at hnan
    · intro hmem
      rw [List.mem_iff_getElem] at hmem
      obtain ⟨j, hj, hjv⟩ := hmem
      have hji : j < s.idx.length := by omega
      have hjz : j < (s.idx.zip s.vals).length := by
        simp [List.length_zip]
        omega
      refine ⟨(s.idx.zip s.vals)[j], List.mem_mergeSort.mpr (List.getElem_mem hjz), ?_⟩
      rw [List.getElem_zip]
      simp [hjv, isNan]
  constructor
  · unfold validate_series
    by_cases hc : ((s.idx.zip s.vals).mergeSort (fun a b => a.1 ≤ b.1)).any
        (fun p => isNan p.2) = true
    · rw [if_pos hc]
      simp [hany.mp hc]
    · rw [if_neg hc]
      constructor
      · intro h
        cases h
      · intro h
        exact absurd (hany.mpr h) hc
  · intro r hr
    unfold validate_series at hr
    by_cases hc : ((s.idx.zip s.vals).mergeSort (fun a b => a.1 ≤ b.1)).any
        (fun p => isNan p.2) = true
    · rw [if_pos hc] at hr
      cases hr
    · rw [if_neg hc] at hr
      have hr' := Except.ok.inj hr
      have hsorted := @List.sorted_mergeSort (ℤ × FVal)
        (fun a b => decide (a.1 ≤ b.1))
        (fun a b c hab hbc => by
          simp only [decide_eq_true_eq] at *
          exact le_trans hab hbc)
        (fun a b => by
          simp only [Bool.or_eq_true, decide_eq_true_eq]
          exact le_total a.1 b.1)
        (s.idx.zip s.vals)
      constructor
      · rw [← hr']
        simp only []
        have : ((s.idx.zip s.vals).mergeSort (fun a b => a.1 ≤ b.1)).Pairwise
            (fun a b => a.1 ≤ b.1) := by
          refine hsorted.imp ?_
          intro a b h
          simpa using h
        exact List.Pairwise.map Prod.fst (fun a b h => h) this
      · rw [← hr']
        simp only []
        rw [zip_map_fst_snd_eq]
        exact List.mergeSort_perm (s.idx.zip s.vals) _

theorem C9_validate_series_spec_witness :
    validate_series ⟨[1, 0], [num 5, nan]⟩ = .error "Series cannot contain NaNs" :=
  (C9_validate_series_spec ⟨[1, 0], [num 5, nan]⟩ (by norm_num)).1.mpr (by simp)

/-- With `alpha=0`, the falsy-default sets `span`, but `alpha=0` itself is
still handed to the smoothing-parameter resolution together with the new
span, which rejects the pair as mutually exclusive. -/
theorem EMA_ctor_alpha_zero (s : PSeries) (sp : Option ℚ) :
    EMA_ctor s (some 0) sp
      = .error "comass, span, halflife, and alpha are mutually exclusive" := by
  unfold EMA_ctor emaResolve EMA_apply ewmAlphaResolve
  cases sp with
  | none => simp [falsyB, Bind.bind, Except.bind]
  | some v =>
    by_cases hv : v = 0
    · subst hv
      simp [falsyB, Bind.bind, Except.bind]
    · simp [falsyB, hv, Bind.bind, Except.bind]

/-- C10 counterexample: on the 2-point series `[1, 2]`, calling EMA with
`alpha = 0` is not treated as if neither parameter were given: the
neither-given call succeeds (span defaults to the length 2, i.e.
`alpha = 2/3`), while the `alpha = 0` call fails with pandas'
mutually-exclusive-parameters error. -/
theorem C10_alpha_zero_counterexample :
    EMA_ctor ⟨[0, 1], [num 1, num 2]⟩ (some 0) none
      = .error "comass, span, halflife, and alpha are mutually exclusive" ∧
    EMA_ctor ⟨[0, 1], [num 1, num 2]⟩ none none
      = .ok ⟨[0, 1], [num 1, num (5/3)]⟩ ∧
    EMA_ctor ⟨[0, 1], [num 1, num 2]⟩ (some 0) none
      ≠ EMA_ctor ⟨[0, 1], [num 1, num 2]⟩ none none := by
  have h1 : EMA_ctor ⟨[0, 1], [num 1, num 2]⟩ (some 0) none
      = .error "comass, span, halflife, and alpha are mutually exclusive" :=
    EMA_ctor_alpha_zero _ none
  have h2 : EMA_ctor ⟨[0, 1], [num 1, num 2]⟩ none none
      = .ok ⟨[0, 1], [num 1, num (5/3)]⟩ := by
    norm_num [EMA_ctor, emaResolve, falsyB, EMA_apply, ewmAlphaResolve, PSeries.length,
      ewmMean, foldSteps, fadd, fmul, Bind.bind, Except.bind]
  refine ⟨h1, h2, ?_⟩
  rw [h1, h2]
  simp

/-- C10 (amended): in EMA, DEMA and TEMA the neither-given default is indeed
triggered by falsiness, but only `span = 0` is then treated exactly as if
neither parameter were given.  `alpha = 0` also triggers the default
(span is silently set to the series length), yet the zero alpha is still
passed on, so the call fails with the mutually-exclusive-parameters error
instead of behaving like the neither-given call. -/
theorem C10_falsy_defaults_span_zero (s : PSeries) :
    (EMA_ctor s none (some 0) = EMA_ctor s none none ∧
     DEMA_ctor s none (some 0) = DEMA_ctor s none none ∧
     TEMA_ctor s none (some 0) = TEMA_ctor s none none) ∧
    (EMA_ctor s (some 0) none
        = .error "comass, span, halflife, and alpha are mutually exclusive" ∧
     DEMA_ctor s (some 0) none
        = .error "comass, span, halflife, and alpha are mutually exclusive" ∧
     TEMA_ctor s (some 0) none
        = .error "comass, span, halflife, and alpha are mutually exclusive") := by
  have hres : ∀ len : ℕ, emaResolve len none (some 0) = emaResolve len none none := by
    intro len
    simp [emaResolve, falsyB]
  have hres0 : ∀ len : ℕ, emaResolve len (some 0) none = (some 0, some (len : ℚ)) := by
    intro len
    simp [emaResolve, falsyB]
  refine ⟨⟨?_, ?_, ?_⟩, ?_, ?_, ?_⟩
  · unfold EMA_ctor
    rw [hres]
  · unfold DEMA_ctor
    rw [hres]
  · unfold TEMA_ctor
    rw [hres]
  · exact EMA_ctor_alpha_zero s none
  · have hD : DEMA_ctor s (some 0) none = DEMA_apply s (some 0) (some (s.length : ℚ)) := by
      unfold DEMA_ctor
      rw [hres0]
    rw [hD]
    unfold DEMA_apply
    rw [EMA_ctor_alpha_zero s (some (s.length : ℚ))]
    rfl
  · have hT : TEMA_ctor s (some 0) none = TEMA_apply s (some 0) (some (s.length : ℚ)) := by
      unfold TEMA_ctor
      rw [hres0]
    rw [hT]
    unfold TEMA_apply
    rw [EMA_ctor_alpha_zero s (some (s.length : ℚ))]
    rfl

/-- C8: when the percent-difference transform is requested the ratio
transform is never applied (whatever its flag), and at every timestamp
carried by both the input and the output, with nonzero input value `q` and
output value `p`, the transformed value is `(p - q) / q`. -/
theorem C8_percent_diff_precedence (s out : PSeries)
    (hs : s.vals.length = s.idx.length) (ho : out.vals.length = out.idx.length)
    (t : ℤ) (hts : t ∈ s.idx) (_hto : t ∈ out.idx)
    (p q : ℚ) (hp : out.get t = num p) (hq : s.get t = num q) (hq0 : q ≠ 0) :
    (∀ r : Bool, outputTransform s out true r = convert_to_percent_diff s out) ∧
    (outputTransform s out true true).get t = num ((p - q) / q) := by
  have hfirst : ∀ r : Bool, outputTransform s out true r = convert_to_percent_diff s out := by
    intro r
    unfold outputTransform
    simp
  refine ⟨hfirst, ?_⟩
  rw [hfirst true]
  unfold convert_to_percent_diff
  have hsub := alignOp_get fsub out s ho hs t (Or.inr hts)
  have hsublen := alignOp_length fsub out s ho hs
  have hdiv := alignOp_get fdiv (alignOp fsub out s) s hsublen hs t (Or.inr hts)
  rw [hdiv, hsub, hp, hq]
  simp [fsub, fadd, fneg, fdiv, hq0, sub_eq_add_neg]

theorem C8_percent_diff_precedence_witness :
    (outputTransform ⟨[0, 1], [num 2, num 4]⟩ ⟨[1], [num 6]⟩ true true).get 1
      = num (((6 : ℚ) - 4) / 4) :=
  (C8_percent_diff_precedence ⟨[0, 1], [num 2, num 4]⟩ ⟨[1], [num 6]⟩
    (by norm_num) (by norm_num) 1 (by norm_num) (by norm_num) 6 4
    (by norm_num [PSeries.get, List.find?, int_beq_eq])
    (by norm_num [PSeries.get, List.find?, int_beq_eq]) (by norm_num)).2

/-- Lookup in a series whose values are mapped pointwise commutes with the
map at any present label. -/
theorem get_map_vals (g : FVal → FVal) (u : List ℤ) (vs : List FVal)
    (hlen : vs.length = u.length) (t : ℤ) (ht : t ∈ u) :
    PSeries.get ⟨u, vs.map g⟩ t = g (PSeries.get ⟨u, vs⟩ t) := by
  induction u generalizing vs with
  | nil => simp at ht
  | cons a u ih =>
    cases vs with
    | nil => simp at hlen
    | cons v vs =>
      by_cases hat : a = t
      · subst hat
        simp [PSeries.get, List.find?]
      · have ht' : t ∈ u := by
          rcases List.mem_cons.mp ht with h | h
          · exact absurd h.symm hat
          · exact h
        have hbeq : (a == t) = false := by simp [hat]
        have hlen' : vs.length = u.length := by simpa using hlen
        simpa [PSeries.get, List.find?, hbeq] using ih vs hlen' ht'

/-- C3: for every input series and valid smoothing factor, DEMA equals
`2*EMA(s, alpha) - EMA(EMA(s, alpha), alpha)` pointwise at every timestamp
of the shared index (all three outputs carry the input's index). -/
theorem C3_dema_pointwise_identity (s : PSeries) (α : ℚ)
    (hα : 0 < α ∧ α ≤ 1) (hlen : s.vals.length = s.idx.length)
    (d e e2 : PSeries)
    (hd : DEMA_apply s (some α) none = .ok d)
    (he : EMA_apply s (some α) none = .ok e)
    (he2 : EMA_apply e (some α) none = .ok e2) :
    d.idx = s.idx ∧
    ∀ t ∈ s.idx, d.get t = fsub (fmul (num 2) (e.get t)) (e2.get t) := by
  have hcond : ¬(α ≤ 0 ∨ 1 < α) := by
    push_neg
    exact ⟨hα.1, hα.2⟩
  have hres : ∀ w : PSeries, EMA_apply w (some α) none = .ok ⟨w.idx, ewmMean α w.vals⟩ := by
    intro w
    unfold EMA_apply ewmAlphaResolve
    simp only [Bind.bind, Except.bind, if_neg hcond]
  have hαne : (α == 0) = false := by simp [hα.1.ne']
  have hctor : ∀ w : PSeries, EMA_ctor w (some α) none = EMA_apply w (some α) none := by
    intro w
    unfold EMA_ctor emaResolve
    simp [falsyB, hαne]
  have heval : e = ⟨s.idx, ewmMean α s.vals⟩ := by
    rw [hres s] at he
    exact (Except.ok.inj he).symm
  have he2val : e2 = ⟨e.idx, ewmMean α e.vals⟩ := by
    rw [hres e] at he2
    exact (Except.ok.inj he2).symm
  have hdval : d = alignOp fsub (seriesScale 2 e) e2 := by
    unfold DEMA_apply at hd
    rw [hctor s, hres s, ← heval] at hd
    simp only [Bind.bind, Except.bind] at hd
    rw [hctor e, hres e, ← he2val] at hd
    simp only [Except.bind] at hd
    exact (Except.ok.inj hd).symm
  have heidx : e.idx = s.idx := by rw [heval]
  have he2idx : e2.idx = e.idx := by rw [he2val]
  have helen : e.vals.length = e.idx.length := by
    rw [heval]
    simpa [ewmMean_length] using hlen
  have he2len : e2.vals.length = e2.idx.length := by
    rw [he2val]
    simpa [ewmMean_length] using helen
  have hsc : seriesScale 2 e = ⟨e.idx, e.vals.map (fun v => fmul (num 2) v)⟩ := rfl
  have hsclen : (seriesScale 2 e).vals.length = (seriesScale 2 e).idx.length := by
    rw [hsc]
    simpa using helen
  constructor
  · rw [hdval]
    unfold alignOp
    rw [if_pos (by rw [hsc]; simpa using he2idx.symm)]
    simpa [hsc] using heidx
  · intro t ht
    have hte : t ∈ e.idx := by rw [heidx]; exact ht
    rw [hdval,
      alignOp_get fsub (seriesScale 2 e) e2 hsclen he2len t
        (Or.inl (by rw [hsc]; simpa using hte))]
    have hscget : (seriesScale 2 e).get t = fmul (num 2) (e.get t) := by
      rw [hsc]
      have := get_map_vals (fun v => fmul (num 2) v) e.idx e.vals helen t hte
      simpa using this
    rw [hscget]

theorem C3_dema_pointwise_identity_witness :
    (⟨[0, 1], [num 1, num (7/4)]⟩ : PSeries).get 1
      = fsub (fmul (num 2) ((⟨[0, 1], [num 1, num (3/2)]⟩ : PSeries).get 1))
             ((⟨[0, 1], [num 1, num (5/4)]⟩ : PSeries).get 1) :=
  (C3_dema_pointwise_identity ⟨[0, 1], [num 1, num 2]⟩ (1/2) (by norm_num) (by norm_num)
    ⟨[0, 1], [num 1, num (7/4)]⟩ ⟨[0, 1], [num 1, num (3/2)]⟩ ⟨[0, 1], [num 1, num (5/4)]⟩
    (by norm_num [DEMA_apply, EMA_ctor, emaResolve, falsyB, EMA_apply, ewmAlphaResolve,
      ewmMean, foldSteps, fadd, fmul, fneg, fsub, Bind.bind, Except.bind, alignOp,
      seriesScale])
    (by norm_num [EMA_apply, ewmAlphaResolve, ewmMean, foldSteps, fadd, fmul,
      Bind.bind, Except.bind])
    (by norm_num [EMA_apply, ewmAlphaResolve, ewmMean, foldSteps, fadd, fmul,
      Bind.bind, Except.bind])).2 1 (by norm_num)


theorem getElem_eq_getD {α : Type} (l : List α) (i : ℕ) (d : α) (h : i < l.length) :
    l[i] = l.getD i d := by
  rw [List.getD_eq_getElem?_getD, List.getElem?_eq_getElem h]
  rfl

theorem sum_map_div (l : List ℚ) (c : ℚ) : (l.map (fun w => w / c)).sum = l.sum / c := by
  induction l with
  | nil => simp
  | cons x xs ih => simp [ih, add_div]

theorem wmaWeights_length (n : ℕ) : (wmaWeights n).length = n := by
  simp [wmaWeights]

theorem wmaWeights_sum_pos (n : ℕ) (hn : 1 ≤ n) : 0 < (wmaWeights n).sum := by
  have hone : ∀ x ∈ wmaWeights n, 1 ≤ x := by
    intro x hx
    rw [wmaWeights, List.mem_map] at hx
    obtain ⟨k, hk, hkx⟩ := hx
    rw [List.mem_range] at hk
    have h1 : 1 ≤ n - k := by omega
    rw [← hkx]
    exact_mod_cast h1
  cases hw : wmaWeights n with
  | nil =>
    exfalso
    have hl := wmaWeights_length n
    rw [hw] at hl
    simp at hl
    omega
  | cons x xs =>
    have hx1 : 1 ≤ x := hone x (by rw [hw]; exact List.mem_cons_self x xs)
    have hxs : 0 ≤ xs.sum := by
      apply List.sum_nonneg
      intro y hy
      have := hone y (by rw [hw]; exact List.mem_cons_of_mem x hy)
      linarith
    simp only [List.sum_cons]
    linarith

theorem getD_map_num (qs : List ℚ) (m : ℕ) (hm : m < qs.length) :
    (qs.map num).getD m nan = num (qs.getD m 0) := by
  rw [List.getD_eq_getElem?_getD, List.getD_eq_getElem?_getD]
  have hm' : m < (qs.map num).length := by simpa
  rw [List.getElem?_eq_getElem hm', List.getElem?_eq_getElem hm]
  simp

theorem length_convolveValid (xs : List FVal) (w : List ℚ) :
    (convolveValid xs w).length = xs.length + 1 - w.length := by
  simp [convolveValid]

theorem getD_convolveValid (xs : List FVal) (w : List ℚ) (i : ℕ)
    (hi : i < xs.length + 1 - w.length) :
    (convolveValid xs w).getD i nan
      = ((List.range w.length).map (fun j =>
          fmul (xs.getD (i + j) nan) (num (w.getD (w.length - 1 - j) 0)))).foldl fadd (num 0) := by
  have hlen : i < (convolveValid xs w).length := by
    rw [length_convolveValid]
    exact hi
  rw [List.getD_eq_getElem?_getD, List.getElem?_eq_getElem hlen]
  simp [convolveValid]

/-- C6: for every NaN-free input of length `L` and window `1 ≤ n ≤ L`, WMA
keeps the final `L-(n-1)` timestamps and produces `L-(n-1)` values; the
normalized weights (the integers `n, n-1, ..., 1` each divided by their sum
`T`) add up to 1; output value `i` (input position `i+n-1`) is the weighted
sum of the `n` inputs `qs[i+j]` with weight `(j+1)/T`, so the most recent
input carries the weight `n/T`, strictly the largest of them. -/
theorem C6_wma_valid_convolution (s : PSeries) (qs : List ℚ) (n : ℕ)
    (hvals : s.vals = qs.map num) (hn : 1 ≤ n) (hnL : n ≤ qs.length) :
    (WMA_apply s n).idx = s.idx.drop (n - 1) ∧
    (WMA_apply s n).vals.length = qs.length - (n - 1) ∧
    ((wmaWeights n).map (fun w => w / (wmaWeights n).sum)).sum = 1 ∧
    (∀ j : ℕ, j + 1 < n →
      ((j : ℚ) + 1) / (wmaWeights n).sum < (n : ℚ) / (wmaWeights n).sum) ∧
    ∀ i, i < qs.length - (n - 1) →
      (WMA_apply s n).vals.getD i nan
        = num (((List.range n).map (fun j =>
            qs.getD (i + j) 0 * (((j : ℚ) + 1) / (wmaWeights n).sum))).sum) := by
  have hT : 0 < (wmaWeights n).sum := wmaWeights_sum_pos n hn
  have hTne : (wmaWeights n).sum ≠ 0 := ne_of_gt hT
  have hwlen : ((wmaWeights n).map (fun w => w / (wmaWeights n).sum)).length = n := by
    simp [wmaWeights_length]
  have hxlen : s.vals.length = qs.length := by rw [hvals]; simp
  refine ⟨rfl, ?_, ?_, ?_, ?_⟩
  · show (convolveValid s.vals ((wmaWeights n).map (fun w => w / (wmaWeights n).sum))).length
        = qs.length - (n - 1)
    rw [length_convolveValid, hwlen, hxlen]
    omega
  · rw [sum_map_div, div_self hTne]
  · intro j hj
    have hjn : ((j : ℚ) + 1) < (n : ℚ) := by exact_mod_cast hj
    exact (div_lt_div_iff_of_pos_right hT).mpr hjn
  · intro i hi
    show (convolveValid s.vals ((wmaWeights n).map (fun w => w / (wmaWeights n).sum))).getD i nan
        = _
    rw [getD_convolveValid s.vals _ i (by rw [hwlen, hxlen]; omega), hwlen]
    have hinner : (List.range n).map (fun j => fmul (s.vals.getD (i + j) nan)
          (num (((wmaWeights n).map (fun w => w / (wmaWeights n).sum)).getD (n - 1 - j) 0)))
        = ((List.range n).map (fun j =>
            qs.getD (i + j) 0 * (((j : ℚ) + 1) / (wmaWeights n).sum))).map num := by
      rw [List.map_map]
      apply List.map_congr_left
      intro j hj
      rw [List.mem_range] at hj
      have hij : i + j < qs.length := by omega
      have hv : s.vals.getD (i + j) nan = num (qs.getD (i + j) 0) := by
        rw [hvals]
        exact getD_map_num qs _ hij
      have hlt : n - 1 - j < n := by omega
      have hraw : (wmaWeights n).getD (n - 1 - j) 0 = ((n - (n - 1 - j) : ℕ) : ℚ) := by
        rw [List.getD_eq_getElem?_getD,
          List.getElem?_eq_getElem (show n - 1 - j < (wmaWeights n).length by
            rw [wmaWeights_length]; exact hlt)]
        simp [wmaWeights]
      have hwd : ((wmaWeights n).map (fun w => w / (wmaWeights n).sum)).getD (n - 1 - j) 0
          = ((j : ℚ) + 1) / (wmaWeights n).sum := by
        rw [List.getD_eq_getElem?_getD,
          List.getElem?_eq_getElem (show n - 1 - j <
            ((wmaWeights n).map (fun w => w / (wmaWeights n).sum)).length by
            rw [hwlen]; exact hlt),
          List.getElem_map,
          getElem_eq_getD (wmaWeights n) (n - 1 - j) 0 (by rw [wmaWeights_length]; exact hlt)]
        rw [Option.getD_some, hraw]
        have harith : n - (n - 1 - j) = j + 1 := by omega
        rw [harith]
        push_cast
        ring
      rw [hv, hwd]
      simp [fmul]
    rw [hinner, foldl_fadd_num]
    simp

theorem C6_wma_valid_convolution_witness :
    (WMA_apply ⟨[0, 1, 2], [num 1, num 2, num 3]⟩ 2).vals.getD 0 nan
      = num (((List.range 2).map (fun j =>
          [(1 : ℚ), 2, 3].getD (0 + j) 0 * (((j : ℚ) + 1) / (wmaWeights 2).sum))).sum) :=
  (C6_wma_valid_convolution ⟨[0, 1, 2], [num 1, num 2, num 3]⟩ [1, 2, 3] 2
    rfl (by norm_num) (by norm_num)).2.2.2.2 0 (by norm_num)

theorem fsub_num (a b : ℚ) : fsub (num a) (num b) = num (a - b) := by
  simp [fsub, fadd, fneg, sub_eq_add_neg]

theorem getD_zipWith (f : FVal → FVal → FVal) (a b : List FVal) (i : ℕ)
    (ha : i < a.length) (hb : i < b.length) :
    (List.zipWith f a b).getD i nan = f (a.getD i nan) (b.getD i nan) := by
  have hz : i < (List.zipWith f a b).length := by
    rw [List.length_zipWith]
    omega
  rw [List.getD_eq_getElem?_getD, List.getElem?_eq_getElem hz,
    List.getD_eq_getElem?_getD, List.getElem?_eq_getElem ha,
    List.getD_eq_getElem?_getD, List.getElem?_eq_getElem hb]
  simp [List.getElem_zipWith]

theorem sum_zero_of_nonneg (l : List ℚ) (h0 : ∀ x ∈ l, 0 ≤ x) (hs : l.sum = 0) :
    ∀ x ∈ l, x = 0 := by
  induction l with
  | nil => simp
  | cons x xs ih =>
    have hx0 : 0 ≤ x := h0 x (List.mem_cons_self x xs)
    have hxs0 : 0 ≤ xs.sum := List.sum_nonneg (fun y hy => h0 y (List.mem_cons_of_mem x hy))
    rw [List.sum_cons] at hs
    have hx : x = 0 := by linarith
    have hsum : xs.sum = 0 := by linarith
    intro y hy
    rcases List.mem_cons.mp hy with h | h
    · rw [h, hx]
    · exact ih (fun z hz => h0 z (List.mem_cons_of_mem x hz)) hsum y h

/-- C7: at every position `i ≥ n` where KER's volatility window sum
`Σ_{j=i-n+1}^{i} |s[j]-s[j-1]|` is zero (a flat window), the KER output at
`i` is the NaN value (`0/0`) — the computation is total, no error is
raised, and the NaN simply sits in the output series for downstream
consumers. -/
theorem C7_ker_flat_window_nan (s : PSeries) (qs : List ℚ) (n i : ℕ)
    (hvals : s.vals = qs.map num) (hn : 1 ≤ n) (hin : n ≤ i) (hiL : i < qs.length)
    (hflat : ((List.range n).map (fun j =>
      |qs.getD (i - n + 1 + j) 0 - qs.getD (i - n + j) 0|)).sum = 0) :
    (KER_apply s n).vals.getD i nan = nan := by
  have hlenv : s.vals.length = qs.length := by rw [hvals]; simp
  have hlen1 : i < ((diffList n s.vals).map fabs).length := by
    simp [length_diffList, hlenv]
    omega
  have hlen2 : i < (rollingSum n ((diffList 1 s.vals).map fabs)).length := by
    simp [length_rollingSum, length_diffList, hlenv]
    omega
  show (List.zipWith fdiv ((diffList n s.vals).map fabs)
      (rollingSum n ((diffList 1 s.vals).map fabs))).getD i nan = nan
  rw [getD_zipWith fdiv _ _ i hlen1 hlen2]
  -- each window term is zero
  have hterm : ∀ j, j < n → |qs.getD (i - n + 1 + j) 0 - qs.getD (i - n + j) 0| = 0 := by
    intro j hj
    apply sum_zero_of_nonneg _ (fun x hx => ?_) hflat
    · rw [List.mem_map]
      exact ⟨j, List.mem_range.mpr hj, rfl⟩
    · rw [List.mem_map] at hx
      obtain ⟨k, _, hk⟩ := hx
      rw [← hk]
      exact abs_nonneg _
  have hstep : ∀ j, j < n → qs.getD (i - n + 1 + j) 0 = qs.getD (i - n + j) 0 := by
    intro j hj
    have := hterm j hj
    rw [abs_eq_zero, sub_eq_zero] at this
    exact this
  have htel : ∀ d, d ≤ n → qs.getD (i - n + d) 0 = qs.getD (i - n) 0 := by
    intro d
    induction d with
    | zero => intro _; rfl
    | succ e ih =>
      intro hd
      have he : e < n := by omega
      have h1 : i - n + 1 + e = i - n + (e + 1) := by omega
      have := hstep e he
      rw [h1] at this
      rw [this]
      exact ih (by omega)
  have hflat2 : qs.getD i 0 = qs.getD (i - n) 0 := by
    have := htel n le_rfl
    have harith : i - n + n = i := by omega
    rw [harith] at this
    exact this
  -- trend at i is num 0
  have htrend : ((diffList n s.vals).map fabs).getD i nan = num 0 := by
    have hi' : i < (diffList n s.vals).length := by
      rw [length_diffList]
      omega
    have hmap : ((diffList n s.vals).map fabs).getD i nan
        = fabs ((diffList n s.vals).getD i nan) := by
      rw [List.getD_eq_getElem?_getD, List.getD_eq_getElem?_getD,
        List.getElem?_eq_getElem (show i < ((diffList n s.vals).map fabs).length by
          simpa using hi'),
        List.getElem?_eq_getElem hi', List.getElem_map]
      rfl
    rw [hmap, getD_diffList n s.vals i (by omega), diffAt,
      if_neg (by omega), hvals, getD_map_num qs i (by omega),
      getD_map_num qs (i - n) (by omega), fsub_num, hflat2]
    simp [fabs]
  -- volatility at i is num 0
  have hvol : (rollingSum n ((diffList 1 s.vals).map fabs)).getD i nan = num 0 := by
    rw [getD_rollingSum n _ i (by simp [length_diffList, hlenv]; omega), rollingSumAt,
      if_neg (by omega)]
    have hwin : ((((diffList 1 s.vals).map fabs).drop (i + 1 - n)).take n)
        = ((List.range n).map (fun j =>
            |qs.getD (i - n + 1 + j) 0 - qs.getD (i - n + j) 0|)).map num := by
      apply List.ext_getElem
      · simp [length_diffList, hlenv]
        omega
      · intro m h1 h2
        have hm : m < n := by simpa using h2
        have hpos : i + 1 - n + m < qs.length := by omega
        simp only [List.getElem_take, List.getElem_drop, List.getElem_map,
          List.getElem_range]
        rw [getElem_eq_getD (diffList 1 s.vals) (i + 1 - n + m) nan
            (by rw [length_diffList]; omega),
          getD_diffList 1 s.vals _ (by omega), diffAt, if_neg (by omega), hvals,
          getD_map_num qs _ (by omega), getD_map_num qs _ (by omega), fsub_num]
        have e1 : i + 1 - n + m = i - n + 1 + m := by omega
        have e2 : i - n + 1 + m - 1 = i - n + m := by omega
        rw [e1, e2]
        simp [fabs]
    rw [hwin]
    simp only [map_num_no_nan, Bool.false_eq_true, if_false]
    rw [foldl_fadd_num, hflat]
    simp
  rw [htrend, hvol]
  simp [fdiv]

theorem C7_ker_flat_window_nan_witness :
    (KER_apply ⟨[0, 1, 2], [num 5, num 5, num 5]⟩ 2).vals.getD 2 nan = nan :=
  C7_ker_flat_window_nan ⟨[0, 1, 2], [num 5, num 5, num 5]⟩ [5, 5, 5] 2 2
    rfl (by norm_num) (by norm_num) (by norm_num)
    (by simp [List.range_succ])

theorem PSeries_eta (s : PSeries) : (⟨s.idx, s.vals⟩ : PSeries) = s := rfl

theorem getD_drop {α : Type} (l : List α) (n i : ℕ) (d : α) :
    (l.drop n).getD i d = l.getD (n + i) d := by
  rw [List.getD_eq_getElem?_getD, List.getElem?_drop, ← List.getD_eq_getElem?_getD]

theorem getD_map_fval (g : FVal → FVal) (l : List FVal) (i : ℕ) (h : i < l.length) :
    (l.map g).getD i nan = g (l.getD i nan) := by
  rw [List.getD_eq_getElem?_getD, List.getD_eq_getElem?_getD,
    List.getElem?_eq_getElem (show i < (l.map g).length by simpa),
    List.getElem?_eq_getElem h, List.getElem_map]
  rfl

theorem getD_zip_pair (a b : List FVal) (i : ℕ) (ha : i < a.length) (hb : i < b.length) :
    (a.zip b).getD i (nan, nan) = (a.getD i nan, b.getD i nan) := by
  have hz : i < (a.zip b).length := by
    rw [List.length_zip]
    omega
  rw [List.getD_eq_getElem?_getD, List.getElem?_eq_getElem hz,
    List.getD_eq_getElem?_getD, List.getElem?_eq_getElem ha,
    List.getD_eq_getElem?_getD, List.getElem?_eq_getElem hb]
  simp [List.getElem_zip]

theorem foldSteps_getD_zero_len (f : FVal → α → FVal) (p : FVal) (l : List α) (d : α)
    (h : 0 < l.length) : (foldSteps f p l).getD 0 nan = f p (l.getD 0 d) := by
  cases l with
  | nil => simp at h
  | cons x xs => rfl

theorem KER_vals_length (s : PSeries) (n : ℕ) :
    (KER_apply s n).vals.length = s.vals.length := by
  simp [KER_apply, List.length_zipWith, length_diffList, length_rollingSum]

/-- C4 counterexample: on the series `[1, 2, 3]` (timestamps 0, 1, 2) with
`er = 2`, `ema_fast = 2`, `ema_slow = 30`, `n = 2`, the first valid SMA value
is `3/2` at timestamp 1 (the seed position), but the KAMA output does not
start there and its first value is not the seed: the output is the single
point `13/6` at timestamp 2 — the seed is consumed by the recurrence and
dropped (`kama[1:]`). -/
theorem C4_kama_seed_dropped_counterexample :
    KAMA_apply ⟨[0, 1, 2], [num 1, num 2, num 3]⟩ 2 2 30 2
      = .ok ⟨[2], [num (13/6)]⟩ ∧
    (dropna (SMA_apply ⟨[0, 1, 2], [num 1, num 2, num 3]⟩ 2)).idx.getD 0 0 = 1 ∧
    (dropna (SMA_apply ⟨[0, 1, 2], [num 1, num 2, num 3]⟩ 2)).vals.getD 0 nan
      = num (3/2) ∧
    ((2 : ℤ) ≠ 1) ∧ num ((13 : ℚ)/6) ≠ num (3/2) := by
  refine ⟨?_, ?_, ?_, by norm_num, by norm_num⟩
  · norm_num [KAMA_apply, KER_apply, SMA_apply, dropna, kamaSC, kamaStep, foldSteps,
      fadd, fmul, fneg, fsub, fdiv, fabs, fsq, isNan, rollingMean, rollingMeanAt,
      rollingSum, rollingSumAt, diffList, diffAt, PSeries.get, List.range_succ,
      List.find?, int_beq_eq]
  · norm_num [SMA_apply, dropna, rollingMean, rollingMeanAt, rollingSumAt,
      List.range_succ, fadd, fdiv, isNan]
  · norm_num [SMA_apply, dropna, rollingMean, rollingMeanAt, rollingSumAt,
      List.range_succ, fadd, fdiv, isNan]

/-- C4 (amended): with a valid series, `1 ≤ er ≤ n < L` and unique ascending
timestamps, KAMA seeds the recurrence with SMA's first valid value (the mean
of the first `n` inputs) but does not emit the seed: the output covers
exactly the positions after the seed position (`s.index[n:]`), its first
value is one recurrence step applied to the seed,
`seed + sc[n]*(price[n] - seed)`, and every later value satisfies
`kama[i] = kama[i-1] + sc[i]*(price[i] - kama[i-1])`, where `sc[i]` is
`(e_ratio[i]*(fast_c-slow_c)+slow_c)^2` over the efficiency ratio
`KER(s, er)`. -/
theorem C4_kama_seed_initializes_recurrence (s : PSeries) (qs : List ℚ)
    (er ema_fast ema_slow n : ℕ)
    (hvals : s.vals = qs.map num) (hlen : s.idx.length = qs.length)
    (hsorted : s.idx.Pairwise (· < ·))
    (her : 1 ≤ er) (hner : er ≤ n) (hnL : n < qs.length) :
    ∃ k, KAMA_apply s er ema_fast ema_slow n = .ok k ∧
      k.idx = s.idx.drop n ∧
      k.vals.length = qs.length - n ∧
      k.vals.getD 0 nan
        = kamaStep (num ((qs.take n).sum / n))
            (num (qs.getD n 0),
             kamaSC ema_fast ema_slow ((KER_apply s er).vals.getD n nan)) ∧
      ∀ i, i + 1 < k.vals.length →
        k.vals.getD (i + 1) nan
          = kamaStep (k.vals.getD i nan)
              (num (qs.getD (n + 1 + i) 0),
               kamaSC ema_fast ema_slow ((KER_apply s er).vals.getD (n + 1 + i) nan)) := by
  have hn1 : 1 ≤ n := le_trans her hner
  have hvlen : s.vals.length = qs.length := by rw [hvals]; simp
  have hrmlen : (rollingMean n (qs.map num)).length = qs.length := by
    rw [length_rollingMean]
    simp
  have hlow : ∀ i, i < n - 1 → (rollingMean n (qs.map num)).getD i nan = nan := by
    intro i hi
    rw [getD_rollingMean n (qs.map num) i (by simp; omega),
      rollingMeanAt_num qs n hn1 i, if_pos (by omega)]
  have hhigh : ∀ i, n - 1 ≤ i → i < (rollingMean n (qs.map num)).length →
      isNan ((rollingMean n (qs.map num)).getD i nan) = false := by
    intro i h1 h2
    rw [getD_rollingMean n (qs.map num) i (by rw [hrmlen] at h2; simpa using h2),
      rollingMeanAt_num qs n hn1 i, if_neg (by omega)]
    rfl
  have hSMA : SMA_apply s n = ⟨s.idx, rollingMean n (qs.map num)⟩ := by
    unfold SMA_apply
    rw [hvals]
  have hdropna : dropna (SMA_apply s n)
      = ⟨s.idx.drop (n - 1), (rollingMean n (qs.map num)).drop (n - 1)⟩ := by
    rw [hSMA]
    exact dropna_split s.idx (rollingMean n (qs.map num)) (n - 1)
      (by rw [hrmlen, hlen]) (by rw [hrmlen]; omega) hlow hhigh
  have hseed : (rollingMean n (qs.map num)).getD (n - 1) nan
      = num ((qs.take n).sum / n) := by
    rw [getD_rollingMean n (qs.map num) (n - 1) (by simp; omega),
      rollingMeanAt_num qs n hn1 (n - 1), if_neg (by omega)]
    have e0 : n - 1 + 1 - n = 0 := by omega
    rw [e0]
    simp
  have hconsshape : (rollingMean n (qs.map num)).drop (n - 1)
      = num ((qs.take n).sum / n) :: (rollingMean n (qs.map num)).drop n := by
    rw [List.drop_eq_getElem_cons (show n - 1 < (rollingMean n (qs.map num)).length by
      rw [hrmlen]; omega)]
    congr 1
    · rw [← hseed, List.getD_eq_getElem?_getD,
        List.getElem?_eq_getElem (show n - 1 < (rollingMean n (qs.map num)).length by
          rw [hrmlen]; omega)]
      rfl
    · congr 1
      omega
  have hkeys : (s.idx.drop (n - 1)).drop 1 = s.idx.drop n := by
    rw [List.drop_drop]
    congr 1
    omega
  have hnodup : s.idx.Nodup := List.Pairwise.imp (fun h => ne_of_lt h) hsorted
  have hker_len : (KER_apply s er).vals.length = qs.length := by
    rw [KER_vals_length, hvlen]
  have hprices : (s.idx.drop n).map (fun t => PSeries.get s t) = (qs.map num).drop n := by
    apply List.ext_getElem
    · simp [hlen]
    · intro j hj1 hj2
      have hj : j < qs.length - n := by simpa [hlen] using hj1
      have hnj : n + j < s.idx.length := by rw [hlen]; omega
      have hnjv : n + j < s.vals.length := by rw [hvlen]; omega
      rw [List.getElem_map, List.getElem_drop, List.getElem_drop]
      have hget := get_of_nodup s.idx s.vals hnodup (n + j) hnj hnjv
      rw [PSeries_eta] at hget
      rw [List.getD_eq_getElem?_getD, List.getElem?_eq_getElem hnj,
        List.getD_eq_getElem?_getD, List.getElem?_eq_getElem hnjv] at hget
      simp only [Option.getD_some] at hget
      rw [hget]
      exact List.getElem_of_eq hvals _
  have hscAt : (s.idx.drop n).map
      (fun t => PSeries.get ⟨s.idx, (KER_apply s er).vals.map (kamaSC ema_fast ema_slow)⟩ t)
      = ((KER_apply s er).vals.map (kamaSC ema_fast ema_slow)).drop n := by
    apply List.ext_getElem
    · simp [hlen, hker_len]
    · intro j hj1 hj2
      have hj : j < qs.length - n := by simpa [hlen] using hj1
      have hnj : n + j < s.idx.length := by rw [hlen]; omega
      have hnjv : n + j < ((KER_apply s er).vals.map (kamaSC ema_fast ema_slow)).length := by
        simp [hker_len]
        omega
      rw [List.getElem_map, List.getElem_drop, List.getElem_drop]
      have hget := get_of_nodup s.idx
        ((KER_apply s er).vals.map (kamaSC ema_fast ema_slow)) hnodup (n + j) hnj hnjv
      rw [List.getD_eq_getElem?_getD, List.getElem?_eq_getElem hnj,
        List.getD_eq_getElem?_getD, List.getElem?_eq_getElem hnjv] at hget
      simp only [Option.getD_some] at hget
      rw [hget]
  have hziplen : (((qs.map num).drop n).zip
      (((KER_apply s er).vals.map (kamaSC ema_fast ema_slow)).drop n)).length
      = qs.length - n := by
    rw [List.length_zip]
    simp [hker_len]
  have hK : KAMA_apply s er ema_fast ema_slow n
      = .ok ⟨s.idx.drop n,
          foldSteps kamaStep (num ((qs.take n).sum / n))
            (((qs.map num).drop n).zip
              (((KER_apply s er).vals.map (kamaSC ema_fast ema_slow)).drop n))⟩ := by
    unfold KAMA_apply
    rw [if_neg (by omega), hdropna]
    simp only [hconsshape, hkeys, hprices, hscAt]
  refine ⟨_, hK, rfl, ?_, ?_, ?_⟩
  · show (foldSteps kamaStep (num ((qs.take n).sum / n)) _).length = qs.length - n
    rw [foldSteps_length, hziplen]
  · show (foldSteps kamaStep (num ((qs.take n).sum / n)) _).getD 0 nan = _
    rw [foldSteps_getD_zero_len kamaStep _ _ (nan, nan) (by rw [hziplen]; omega)]
    congr 1
    rw [getD_zip_pair _ _ 0 (by simp; omega) (by simp [hker_len]; omega),
      getD_drop, getD_drop]
    rw [show n + 0 = n from rfl,
      getD_map_num qs n hnL,
      getD_map_fval (kamaSC ema_fast ema_slow) _ n (by rw [hker_len]; omega)]
  · intro i hi
    show (foldSteps kamaStep (num ((qs.take n).sum / n)) _).getD (i + 1) nan = _
    have hi' : i + 1 < (((qs.map num).drop n).zip
        (((KER_apply s er).vals.map (kamaSC ema_fast ema_slow)).drop n)).length := by
      rw [hziplen]
      rw [foldSteps_length, hziplen] at hi
      exact hi
    rw [foldSteps_getD_succ kamaStep (nan, nan) _ _ i hi']
    congr 1
    rw [getD_zip_pair _ _ (i + 1) (by simp; omega) (by simp [hker_len]; omega),
      getD_drop, getD_drop]
    have e1 : n + (i + 1) = n + 1 + i := by omega
    rw [e1, getD_map_num qs _ (by omega),
      getD_map_fval (kamaSC ema_fast ema_slow) _ _ (by rw [hker_len]; omega)]

theorem C4_kama_seed_initializes_recurrence_witness :
    ∃ k, KAMA_apply ⟨[0, 1, 2], [num 1, num 2, num 3]⟩ 2 2 30 2 = .ok k ∧
      k.idx = ([0, 1, 2] : List ℤ).drop 2 ∧
      k.vals.length = [(1 : ℚ), 2, 3].length - 2 ∧
      k.vals.getD 0 nan
        = kamaStep (num (([(1 : ℚ), 2, 3].take 2).sum / ((2 : ℕ) : ℚ)))
            (num ([(1 : ℚ), 2, 3].getD 2 0),
             kamaSC 2 30
               ((KER_apply ⟨[0, 1, 2], [num 1, num 2, num 3]⟩ 2).vals.getD 2 nan)) ∧
      ∀ i, i + 1 < k.vals.length →
        k.vals.getD (i + 1) nan
          = kamaStep (k.vals.getD i nan)
              (num ([(1 : ℚ), 2, 3].getD (2 + 1 + i) 0),
               kamaSC 2 30
                 ((KER_apply ⟨[0, 1, 2], [num 1, num 2, num 3]⟩ 2).vals.getD
                   (2 + 1 + i) nan)) :=
  C4_kama_seed_initializes_recurrence ⟨[0, 1, 2], [num 1, num 2, num 3]⟩ [1, 2, 3]
    2 2 30 2 rfl (by norm_num) (by decide) (by norm_num) (by norm_num) (by norm_num)
